import Mathlib

set_option maxRecDepth 10000

/-!
# Verification of the Nexus core library (`nexus.h`)

A shallow embedding of the data structures and process-control routines of
the Nexus single-header C library, together with theorems settling the
specification claims about them.

Modelling conventions:
* C `size_t` values are modelled as `Nat`; where C overflow is observable the
  reduction modulo `2 ^ 64` is written explicitly (the library targets LP64
  POSIX systems: `size_t` is 64 bits wide, `unsigned int` 32 bits wide).
* `void *` payloads/values are modelled as `Option V` (`none` is the C `NULL`
  pointer); heap addresses handed out by the arena are modelled as `Nat`.
* `malloc`/`realloc` are modelled as always succeeding (ideal memory); the
  C source's allocation-failure early returns are noted in comments at the
  definitions they would affect.
* OS effects (`stat`, `pipe`, `fork`, `execv`, child exit status) are inputs
  supplied through explicit environment records, and the observable actions
  of a routine are returned as an explicit event list / outcome value.
-/

namespace Nexus

/-! ## Configuration constants (`nexus.h` defaults) -/

/-- `#define NX_ARENA_BLOCK_SIZE 4096` -/
def NX_ARENA_BLOCK_SIZE : Nat := 4096

/-- `#define NX_HASHMAP_INITIAL_CAPACITY 16` -/
def NX_HASHMAP_INITIAL_CAPACITY : Nat := 16

/-- `#define NX_STRING_BUILDER_INITIAL_CAPACITY 256` -/
def NX_STRING_BUILDER_INITIAL_CAPACITY : Nat := 256

/-- `#define NX_STRING_BUILDER_GROWTH_FACTOR 2` -/
def NX_STRING_BUILDER_GROWTH_FACTOR : Nat := 2

/-! ## Arena allocator

C source: `NXArenaBlock` / `NXArena`, `nx_arena_create`, `nx_arena_alloc`,
`nx_arena_reset`.  A block's backing memory is abstracted to its starting
address `addr`; `nextAddr` models the (fresh, increasing) addresses that
`malloc` returns for new block memory. -/

structure NXArenaBlock where
  addr : Nat
  used : Nat
  size : Nat
deriving DecidableEq

structure NXArena where
  blocks : List NXArenaBlock
  /-- index into `blocks` of the block `arena->current` points to -/
  currentIdx : Nat
  /-- model of the `malloc` address supply for new block memory -/
  nextAddr : Nat
deriving DecidableEq

/-- C: `size = (size + 7U) & ~7U;` (inside `nx_arena_alloc`).
On LP64, `size + 7U` is a 64-bit `size_t` sum, while `~7U` is the 32-bit
`unsigned int` `0xFFFFFFF8`, zero-extended to 64 bits by the usual arithmetic
conversions.  Masking with `0xFFFFFFF8` keeps exactly bits 3..31, i.e. it is
reduction modulo `2 ^ 32` followed by clearing the three low bits, written
here arithmetically: `x &&& 0xFFFFFFF8 = x % 2 ^ 32 / 8 * 8`. -/
def nxAlign8 (size : Nat) : Nat :=
  (size + 7) % 2 ^ 64 % 2 ^ 32 / 8 * 8

/-- `nx_arena_create`: one default-size block, `current = first`.
`base` is the model address `malloc` returned for the first block's memory.
(The C allocation-failure paths return `NULL`; memory is ideal here.) -/
def nx_arena_create (base : Nat) : NXArena :=
  { blocks := [{ addr := base, used := 0, size := NX_ARENA_BLOCK_SIZE }],
    currentIdx := 0,
    nextAddr := base + NX_ARENA_BLOCK_SIZE }

/-- `nx_arena_alloc`: align the request to 8 bytes; if the active block lacks
room, append a fresh block of size `max(aligned, NX_ARENA_BLOCK_SIZE)` after
the active block (C: `current->next = new_block; arena->current = new_block`,
which drops any blocks previously chained after `current`), then bump-allocate
from the active block.  Returns the allocated address and the new arena state.
The `none` branch of the match is unreachable: `current` always designates a
live block in any state produced by this model. -/
def nx_arena_alloc (a : NXArena) (size : Nat) : Nat × NXArena :=
  let sz := nxAlign8 size
  match a.blocks.get? a.currentIdx with
  | none => (0, a)
  | some cur =>
    if cur.size < cur.used + sz then
      let newBlockSize := if NX_ARENA_BLOCK_SIZE < sz then sz else NX_ARENA_BLOCK_SIZE
      let nb : NXArenaBlock := { addr := a.nextAddr, used := sz, size := newBlockSize }
      (a.nextAddr,
       { blocks := a.blocks.take (a.currentIdx + 1) ++ [nb],
         currentIdx := a.currentIdx + 1,
         nextAddr := a.nextAddr + newBlockSize })
    else
      (cur.addr + cur.used,
       { a with blocks := a.blocks.set a.currentIdx { cur with used := cur.used + sz } })

/-- `nx_arena_reset`: zero every block's `used` counter and repoint `current`
to the first block; no block is freed. -/
def nx_arena_reset (a : NXArena) : NXArena :=
  { a with blocks := a.blocks.map (fun b => { b with used := 0 }), currentIdx := 0 }

/-- Run a sequence of allocation requests against an arena. -/
def nxArenaRun (sizes : List Nat) (a : NXArena) : NXArena :=
  sizes.foldl (fun a s => (nx_arena_alloc a s).2) a

/-- The `used` counter of the block `arena->current` points to. -/
def activeUsed (a : NXArena) : Nat :=
  match a.blocks.get? a.currentIdx with
  | none => 0
  | some b => b.used

/-- Spec-side definition: the least multiple of 8 that is ≥ `n`. -/
def roundUp8 (n : Nat) : Nat := 8 * ((n + 7) / 8)

/-! ## String builder

C source: `NXStringBuilder`, `nx_string_builder_create` / `_resize` /
`_append` / `_append_char` / `_clear`.  The backing buffer is a byte list of
length `capacity`; a C string argument is modelled as the list of its bytes
before the terminating `NUL`. -/

structure NXStringBuilder where
  buffer : List Nat
  length : Nat
  capacity : Nat
deriving DecidableEq

/-- `nx_string_builder_create`: capacity `NX_STRING_BUILDER_INITIAL_CAPACITY`,
length 0, `buffer[0] = '\0'`.  The bytes `malloc` leaves uninitialised are
modelled as 0; the C allocation-failure path returns `NULL` (ideal memory
here). -/
def nx_string_builder_create : NXStringBuilder :=
  { capacity := NX_STRING_BUILDER_INITIAL_CAPACITY,
    length := 0,
    buffer := (List.replicate NX_STRING_BUILDER_INITIAL_CAPACITY 0).set 0 0 }

/-- `nx_string_builder_resize`: no-op unless `new_capacity > capacity`;
`realloc` preserves the old bytes and the fresh tail is modelled as zeros.
(The C `realloc`-failure branch sets `capacity = 0`; memory is ideal here,
as flagged in the spec's design notes.) -/
def nx_string_builder_resize (sb : NXStringBuilder) (newCap : Nat) : NXStringBuilder :=
  if newCap ≤ sb.capacity then sb
  else { sb with
         capacity := newCap,
         buffer := sb.buffer ++ List.replicate (newCap - sb.buffer.length) 0 }

/-- The doubling loop of `nx_string_builder_append`:
`while (need >= new_capacity) new_capacity *= NX_STRING_BUILDER_GROWTH_FACTOR;`.
The `0 < cap` conjunct only forces termination in Lean: the C loop diverges
for `cap = 0`, which is unreachable (capacity is always positive), and on all
inputs with `cap > 0` the guard agrees with the C condition. -/
def sbGrowCap (need cap : Nat) : Nat :=
  if 0 < cap ∧ cap ≤ need then sbGrowCap need (cap * NX_STRING_BUILDER_GROWTH_FACTOR)
  else cap
termination_by need + 1 - cap
decreasing_by simp only [NX_STRING_BUILDER_GROWTH_FACTOR]; omega

/-- Byte-by-byte `memcpy(buf + off, s, s.length)`. -/
def sbWriteBytes (buf : List Nat) (off : Nat) (s : List Nat) : List Nat :=
  match s with
  | [] => buf
  | b :: t => sbWriteBytes (buf.set off b) (off + 1) t

/-- `nx_string_builder_append`: grow (doubling, looped) when
`length + str_len >= capacity`, then `memcpy(buffer + length, str, str_len + 1)`
(the source bytes plus their terminating `NUL`) and `length += str_len`. -/
def nx_string_builder_append (sb : NXStringBuilder) (s : List Nat) : NXStringBuilder :=
  let strLen := s.length
  let sb1 :=
    if sb.capacity ≤ sb.length + strLen then
      nx_string_builder_resize sb
        (sbGrowCap (sb.length + strLen) (sb.capacity * NX_STRING_BUILDER_GROWTH_FACTOR))
    else sb
  { sb1 with
    buffer := sbWriteBytes sb1.buffer sb1.length (s ++ [0]),
    length := sb1.length + strLen }

/-- `nx_string_builder_append_char`: grow once (doubling) when
`length + 1 >= capacity`, write the byte at `[length]`, a `NUL` at
`[length + 1]`, and increment `length`. -/
def nx_string_builder_append_char (sb : NXStringBuilder) (c : Nat) : NXStringBuilder :=
  let sb1 :=
    if sb.capacity ≤ sb.length + 1 then
      nx_string_builder_resize sb (sb.capacity * NX_STRING_BUILDER_GROWTH_FACTOR)
    else sb
  { sb1 with
    buffer := (sb1.buffer.set sb1.length c).set (sb1.length + 1) 0,
    length := sb1.length + 1 }

/-- `nx_string_builder_clear`: `length = 0; buffer[0] = '\0';`. -/
def nx_string_builder_clear (sb : NXStringBuilder) : NXStringBuilder :=
  { sb with length := 0, buffer := sb.buffer.set 0 0 }

/-- `nx_string_builder_to_cstring` viewed as the bytes before the
terminator. -/
def sbContents (sb : NXStringBuilder) : List Nat := sb.buffer.take sb.length

/-- The mutating string-builder operations (beyond `create`). -/
inductive NXSBOp where
  | append (s : List Nat)
  | appendChar (c : Nat)
  | clear
  | resize (n : Nat)

def nxSBApply : NXSBOp → NXStringBuilder → NXStringBuilder
  | .append s, sb => nx_string_builder_append sb s
  | .appendChar c, sb => nx_string_builder_append_char sb c
  | .clear, sb => nx_string_builder_clear sb
  | .resize n, sb => nx_string_builder_resize sb n

def nxSBRun (ops : List NXSBOp) (sb : NXStringBuilder) : NXStringBuilder :=
  ops.foldl (fun sb op => nxSBApply op sb) sb

/-- The string-builder invariant claimed by the spec: the buffer is
`NUL`-terminated at index `length` and `capacity > length` (plus the implicit
fact that the buffer really has `capacity` bytes).  The default value `1` in
`getD` makes an out-of-range read fail the predicate. -/
def SBInv (sb : NXStringBuilder) : Prop :=
  sb.length < sb.capacity ∧
  sb.buffer.length = sb.capacity ∧
  sb.buffer.getD sb.length 1 = 0

/-! ## Hash map

C source: `NXHashMap`, `nx_hashmap_create` / `_insert` / `_get` / `_remove` /
`_resize`.  Buckets are chains (lists) of key/value entries; the hash and
equality function pointers are fields of the structure.  Values are
`Option V`: `none` is the C `NULL` pointer. -/

structure NXHashMap (K V : Type) where
  capacity : Nat
  size : Nat
  hash : K → Nat
  keyEq : K → K → Bool
  buckets : List (List (K × Option V))

variable {K V : Type}

/-- The chain scan shared by `nx_hashmap_get` and the lookup loops of
`insert`/`remove`: value of the first entry whose key `key_equal`s `k`,
else `NULL`. -/
def nxChainGet (keq : K → K → Bool) (c : List (K × Option V)) (k : K) : Option V :=
  match c with
  | [] => none
  | e :: t => if keq e.1 k then e.2 else nxChainGet keq t k

/-- Whether some entry of the chain `key_equal`s `k` (the test performed by
the `while` loop of `nx_hashmap_insert`). -/
def nxChainContains (keq : K → K → Bool) (c : List (K × Option V)) (k : K) : Bool :=
  match c with
  | [] => false
  | e :: t => keq e.1 k || nxChainContains keq t k

/-- Overwrite the value of the first matching entry (the `entry->value = value`
branch of `nx_hashmap_insert`; the stored key pointer is kept). -/
def nxChainOverwrite (keq : K → K → Bool) (k : K) (v : Option V) :
    List (K × Option V) → List (K × Option V)
  | [] => []
  | e :: t => if keq e.1 k then (e.1, v) :: t else e :: nxChainOverwrite keq k v t

/-- Unlink the first matching entry (the unlink loop of `nx_hashmap_remove`);
`none` when no entry matches. -/
def nxChainRemove (keq : K → K → Bool) (k : K) :
    List (K × Option V) → Option (List (K × Option V))
  | [] => none
  | e :: t =>
    if keq e.1 k then some t
    else (nxChainRemove keq k t).map (e :: ·)

/-- The value of the IEEE-754 binary32 (`float`) representation nearest to
the natural number `n` (round to nearest, ties to even), as an exact natural
number: `n` is rounded to 24 significant bits.  This is what the C casts
`(float) map->size` and `(float) map->capacity` compute on IEEE platforms.
Exact for `n < 2 ^ 24`; finite for every `n < 2 ^ 128`, so for every
`size_t` operand. -/
def floatOfNat (n : Nat) : Nat :=
  if n < 2 ^ 24 then n
  else
    let s := n.log2 + 1 - 24
    let q := n / 2 ^ s
    let r := n % 2 ^ s
    let q2 :=
      if r < 2 ^ (s - 1) then q
      else if 2 ^ (s - 1) < r then q + 1
      else q + q % 2
    q2 * 2 ^ s

/-- C: `(float) map->size / (float) map->capacity > NX_HASHMAP_LOAD_FACTOR`
with `NX_HASHMAP_LOAD_FACTOR 0.75f`.  Both operands are first rounded to
`float` (`floatOfNat`); the IEEE division is correctly rounded to nearest,
ties to even.  `0.75f` is exactly representable, its significand is even,
and its upward gap is `2 ^ (-24)`, so the rounded quotient exceeds `0.75f`
exactly when the exact quotient of the rounded operands exceeds the rounding
midpoint `3 / 4 + 2 ^ (-25) = 100663300 / 2 ^ 27`: rounding is monotone,
every real above that midpoint rounds to at least the float successor of
`0.75`, and the midpoint itself rounds down to the even `0.75`.  Clearing
denominators gives the integer comparison below.  (For `capacity = 0` the C
quotient is `+inf` when `size > 0` — comparison true — and NaN when
`size = 0` — comparison false; the integer comparison agrees in both
cases.) -/
def nxLoadExceeded (size capacity : Nat) : Bool :=
  decide (100663300 * floatOfNat capacity < 134217728 * floatOfNat size)

/-- `nx_hashmap_create`: initial capacity 16, size 0, empty buckets.  The C
function substitutes `nx_default_hash` / `nx_default_key_equal` for `NULL`
function pointers and returns `NULL` on allocation failure; here the two
functions are taken as given. -/
def nx_hashmap_create (hash : K → Nat) (keyEq : K → K → Bool) : NXHashMap K V :=
  { capacity := NX_HASHMAP_INITIAL_CAPACITY,
    size := 0,
    hash := hash,
    keyEq := keyEq,
    buckets := List.replicate NX_HASHMAP_INITIAL_CAPACITY [] }

/-- One step of the rehash loop of `nx_hashmap_resize`: each entry of the old
chain is prepended (`entry->next = map->buckets[new_index]; ...`) to its new
bucket, head first. -/
def nxRehashChain (idxOf : K → Nat) (c : List (K × Option V))
    (acc : List (List (K × Option V))) : List (List (K × Option V)) :=
  c.foldl (fun acc e => acc.set (idxOf e.1) (e :: acc.getD (idxOf e.1) [])) acc

/-- `nx_hashmap_resize`: double the capacity, allocate a zeroed bucket array
(`nx_calloc`), and rehash every entry of every old bucket (old buckets in
index order, each chain head first) into the new array. -/
def nx_hashmap_resize (m : NXHashMap K V) : NXHashMap K V :=
  let cap2 := m.capacity * 2
  { m with
    capacity := cap2,
    buckets :=
      m.buckets.foldl (fun acc c => nxRehashChain (fun k => m.hash k % cap2) c acc)
        (List.replicate cap2 []) }

/-- `nx_hashmap_insert`: scan the target bucket for an equal key and overwrite
its value (no size change); otherwise prepend a fresh entry, increment `size`,
and resize when the load factor is exceeded.  The C early `return false` on
entry-allocation failure is the ideal-memory exception; the returned `Bool`
is the C return value. -/
def nx_hashmap_insert (m : NXHashMap K V) (k : K) (v : Option V) :
    NXHashMap K V × Bool :=
  let index := m.hash k % m.capacity
  let chain := m.buckets.getD index []
  if nxChainContains m.keyEq chain k then
    ({ m with buckets := m.buckets.set index (nxChainOverwrite m.keyEq k v chain) }, true)
  else
    let m1 : NXHashMap K V :=
      { m with buckets := m.buckets.set index ((k, v) :: chain), size := m.size + 1 }
    if nxLoadExceeded m1.size m1.capacity then (nx_hashmap_resize m1, true)
    else (m1, true)

/-- `nx_hashmap_get`: scan the chain of bucket `hash(key) % capacity`. -/
def nx_hashmap_get (m : NXHashMap K V) (k : K) : Option V :=
  nxChainGet m.keyEq (m.buckets.getD (m.hash k % m.capacity) []) k

/-- `nx_hashmap_remove`: unlink and free the first matching entry of the
target bucket and decrement `size` (Nat subtraction; in C `size_t`, and
`size ≥ 1` whenever an entry exists in a well-formed map). -/
def nx_hashmap_remove (m : NXHashMap K V) (k : K) : NXHashMap K V × Bool :=
  let index := m.hash k % m.capacity
  match nxChainRemove m.keyEq k (m.buckets.getD index []) with
  | some chain2 => ({ m with buckets := m.buckets.set index chain2, size := m.size - 1 }, true)
  | none => (m, false)

/-- All entries of the map, bucket by bucket. -/
def nxEntries (m : NXHashMap K V) : List (K × Option V) := m.buckets.flatten

/-- Well-formedness: positive capacity, a bucket array of exactly `capacity`
buckets, and every entry sitting in the bucket its hash designates. -/
def HMWf (m : NXHashMap K V) : Prop :=
  0 < m.capacity ∧
  m.buckets.length = m.capacity ∧
  ∀ i, i < m.buckets.length → ∀ e ∈ m.buckets.getD i [], m.hash e.1 % m.capacity = i

/-- No two (distinct positions of) entries hold `key_equal` keys. -/
def NoDupKeys (m : NXHashMap K V) : Prop :=
  (nxEntries m).Pairwise fun a b => m.keyEq a.1 b.1 = false ∧ m.keyEq b.1 a.1 = false

/-- The mutating/observing map operations (`get` does not change the map). -/
inductive NXHashMapOp (K V : Type) where
  | insert (k : K) (v : Option V)
  | remove (k : K)
  | get (k : K)

def nxHashMapApply : NXHashMapOp K V → NXHashMap K V → NXHashMap K V
  | .insert k v, m => (nx_hashmap_insert m k v).1
  | .remove k, m => (nx_hashmap_remove m k).1
  | .get _, m => m

def nxHashMapRun (ops : List (NXHashMapOp K V)) (m : NXHashMap K V) : NXHashMap K V :=
  ops.foldl (fun m op => nxHashMapApply op m) m

/-! ## Command runner

C source: `NXCR`, `nx_cr_create`, `nx_cr_execute`.  The OS behaviour of one
`execute` call (pipe/fork success, the child's combined stdout+stderr bytes,
and its wait status) is an explicit environment record. -/

structure NXCR where
  command : NXStringBuilder
  /-- `char *output`: `none` is the C `NULL` pointer. -/
  output : Option (List Nat)
  exitCode : Int
deriving DecidableEq

def nx_cr_create : NXCR :=
  { command := nx_string_builder_create, output := none, exitCode := 0 }

structure CRExecEnv where
  pipeOk : Bool
  forkOk : Bool
  /-- combined stdout+stderr bytes the parent reads from the pipe -/
  childOutput : List Nat
  /-- `WIFEXITED(status)` -/
  childExited : Bool
  /-- `WEXITSTATUS(status)` -/
  childExitCode : Int
deriving DecidableEq

/-- `nx_cr_execute`.  The function first frees `cr->output` and sets it to
`NULL`; only then does it attempt `pipe` and `fork`, returning `-1` from
either failure.  On the parent path it accumulates the pipe bytes into a
fresh string builder (the fixed-size-chunk read loop concatenates), copies
them into `cr->output` when non-empty, records the child's exit status
(`-1` when the child did not exit normally), and clears the pending command
buffer.  Returns the C return value paired with the updated runner. -/
def nx_cr_execute (cr : NXCR) (env : CRExecEnv) : Int × NXCR :=
  let cr1 : NXCR := { cr with output := none }
  if env.pipeOk = false then (-1, cr1)
  else if env.forkOk = false then (-1, cr1)
  else
    let outSB := nx_string_builder_append nx_string_builder_create env.childOutput
    let cr2 := if 0 < outSB.length then { cr1 with output := some (sbContents outSB) } else cr1
    let code : Int := if env.childExited then env.childExitCode else -1
    (code, { cr2 with exitCode := code, command := nx_string_builder_clear cr2.command })

/-! ## Self-rebuild orchestrator

C source: `_nx_extract_basename`, `_nx_remove_extension`, `nx_rebuild`
(with `nx_compile_command` / `nx_cr_execute` underneath).  File paths are
`List Char`; `stat` results, the compiler's exit code, and `execv` success
are an explicit environment record.  The observable behaviour is the list of
compile invocations issued plus the outcome: either the function returns an
`int`, or the process image is replaced by `execv`. -/

/-- Index of the last occurrence of `c` in `s` (the `strrchr` scan). -/
def nxLastIndexAux (s : List Char) (c : Char) (i : Nat) : Option Nat :=
  match s with
  | [] => none
  | ch :: t =>
    match nxLastIndexAux t c (i + 1) with
    | some j => some j
    | none => if ch = c then some i else none

def nxLastIndex (s : List Char) (c : Char) : Option Nat := nxLastIndexAux s c 0

/-- `_nx_extract_basename`: the suffix after the last `'/'`, or the whole
path. -/
def nxExtractBasename (p : List Char) : List Char :=
  match nxLastIndex p '/' with
  | some i => p.drop (i + 1)
  | none => p

/-- `_nx_remove_extension`: truncate at the last `'.'` (the `strrchr` hit is
overwritten with `NUL`), or leave the name unchanged. -/
def nxRemoveExtension (f : List Char) : List Char :=
  match nxLastIndex f '.' with
  | some i => f.take i
  | none => f

/-- The target executable name `nx_rebuild` computes from the source path. -/
def nxTargetExe (sourceFile : List Char) : List Char :=
  nxRemoveExtension (nxExtractBasename sourceFile)

/-- The fixed compiler invocation `nx_rebuild` hands to `nx_compile_command`
(`args[0..7]` in the source). -/
def nxBuildArgs (sourceFile target : List Char) : List (List Char) :=
  ["cc".toList, sourceFile, "-o".toList, target,
   "-Wall".toList, "-Wextra".toList, "-fdiagnostics-color=always".toList, "-O2".toList]

structure RebuildEnv where
  /-- `stat(source_file)` modification time; `none`: the `stat` call failed -/
  srcMtime : Option Int
  /-- `stat(output_executable)` modification time; `none`: no executable -/
  exeMtime : Option Int
  /-- exit code `nx_compile_command` reports for the compile -/
  compileExit : Int
  /-- whether the final `execv` succeeds (on success it does not return) -/
  execOk : Bool
deriving DecidableEq

/-- A compile invocation issued through `nx_compile_command`; the `Bool`
records `enable_warnings` (which appends the `nx_cr_enable_gcc_warnings`
flag set to the command before running it). -/
inductive RbEvent where
  | compile (args : List (List Char)) (enableWarnings : Bool)
deriving DecidableEq

/-- How `nx_rebuild` ends: an ordinary `return code`, or the process image
replaced by `execv(path, args)` (so the call never returns). -/
inductive RbOutcome where
  | ret (code : Int)
  | replaced (path : List Char) (args : List (Option String))
deriving DecidableEq

/-- The staleness test of `nx_rebuild`: rebuild iff the executable's `stat`
fails (no executable) or `src_stat.st_mtime > exe_stat.st_mtime`. -/
def needsRebuild (srcM : Int) (exeMtime : Option Int) : Bool :=
  match exeMtime with
  | none => true
  | some exeM => decide (exeM < srcM)

/-- `nx_rebuild(source_file, argc, argv)`.  Mirrors the source order: extract
the basename, reject it when it would overflow the 256-byte buffer
(`return -1`), strip the extension, `stat` the source (`return -1` on
failure), compare timestamps, and if stale compile once
(`nx_compile_command(..., enable_warnings = 1)`), propagating a nonzero
compile exit code; on compile success build
`new_argv = argv[0..argc-1] ++ [NULL]` (the `malloc` for it is ideal) and
`execv` the freshly built executable — returning `-1` only if `execv` itself
fails. -/
def nx_rebuild (sourceFile : List Char) (argv : List String) (env : RebuildEnv) :
    List RbEvent × RbOutcome :=
  let basenameExt := nxExtractBasename sourceFile
  if 256 ≤ basenameExt.length then ([], .ret (-1))
  else
    let target := nxRemoveExtension basenameExt
    match env.srcMtime with
    | none => ([], .ret (-1))
    | some srcM =>
      if needsRebuild srcM env.exeMtime then
        let ev := RbEvent.compile (nxBuildArgs sourceFile target) true
        if env.compileExit ≠ 0 then ([ev], .ret env.compileExit)
        else if env.execOk then ([ev], .replaced target (argv.map some ++ [none]))
        else ([ev], .ret (-1))
      else ([], .ret 0)

/-- Number of compile invocations in an event trace. -/
def countCompiles (evs : List RbEvent) : Nat :=
  (evs.filter fun e => match e with | .compile _ _ => true).length

/-! ## Generic list helpers -/

theorem nxGetDSetSelf {α : Type _} :
    ∀ (l : List α) (i : Nat) (x d : α), i < l.length → (l.set i x).getD i d = x := by
  intro l
  induction l with
  | nil => intro i x d h; simp at h
  | cons a t ih =>
    intro i x d h
    cases i with
    | zero => simp
    | succ j =>
      simp only [List.set_cons_succ, List.getD_cons_succ]
      exact ih j x d (by simpa using h)

theorem nxGetDSetNe {α : Type _} :
    ∀ (l : List α) (i j : Nat) (x d : α), i ≠ j → (l.set i x).getD j d = l.getD j d := by
  intro l
  induction l with
  | nil => intro i j x d _; simp
  | cons a t ih =>
    intro i j x d hij
    cases i with
    | zero =>
      cases j with
      | zero => exact absurd rfl hij
      | succ j2 => simp
    | succ i2 =>
      cases j with
      | zero => simp
      | succ j2 =>
        simp only [List.set_cons_succ, List.getD_cons_succ]
        exact ih i2 j2 x d (by omega)

theorem nxGet?SetSelf {α : Type _} :
    ∀ (l : List α) (i : Nat) (x : α), i < l.length → (l.set i x).get? i = some x := by
  intro l
  induction l with
  | nil => intro i x h; simp at h
  | cons a t ih =>
    intro i x h
    cases i with
    | zero => simp
    | succ j =>
      simp only [List.set_cons_succ, List.get?]
      exact ih j x (by simpa using h)

theorem nxFlattenSetCons {α : Type _} :
    ∀ (l : List (List α)) (i : Nat) (x : α), i < l.length →
      (l.set i (x :: l.getD i [])).flatten.Perm (x :: l.flatten) := by
  intro l
  induction l with
  | nil => intro i x h; simp at h
  | cons c t ih =>
    intro i x h
    cases i with
    | zero => simp
    | succ j =>
      simp only [List.set_cons_succ, List.getD_cons_succ, List.flatten_cons]
      have hj : j < t.length := by simpa using h
      exact (List.Perm.append_left c (ih j x hj)).trans List.perm_middle

theorem nxMemFlattenOfGetD {α : Type _} (l : List (List α)) (i : Nat) (e : α)
    (hi : i < l.length) (he : e ∈ l.getD i []) : e ∈ l.flatten := by
  have hget : l.getD i [] = l.get ⟨i, hi⟩ := by
    simp [List.getD, List.getElem?_eq_getElem hi, List.get_eq_getElem]
  exact List.mem_flatten.2 ⟨l.get ⟨i, hi⟩, List.get_mem l i hi, by rwa [hget] at he⟩

theorem nxSublistGetDFlatten {α : Type _} :
    ∀ (l : List (List α)) (i : Nat), (l.getD i []).Sublist l.flatten := by
  intro l
  induction l with
  | nil => intro i; simp
  | cons c t ih =>
    intro i
    cases i with
    | zero =>
      simp only [List.getD_cons_zero, List.flatten_cons]
      exact List.sublist_append_left c t.flatten
    | succ j =>
      simp only [List.getD_cons_succ, List.flatten_cons]
      exact (ih j).trans (List.sublist_append_right c t.flatten)

/-! ## Arena theorems (claims C5, C8) -/

theorem nxAlign8_of_small {size : Nat} (h : size + 7 < 2 ^ 32) :
    nxAlign8 size = roundUp8 size := by
  have e32 : (2 : Nat) ^ 32 = 4294967296 := by norm_num
  have e64 : (2 : Nat) ^ 64 = 18446744073709551616 := by norm_num
  rw [e32] at h
  simp only [nxAlign8, roundUp8, e32, e64]
  omega

theorem nxAlign8_le_block {size : Nat} (h : size ≤ NX_ARENA_BLOCK_SIZE) :
    nxAlign8 size ≤ NX_ARENA_BLOCK_SIZE := by
  have e : nxAlign8 size = roundUp8 size := by
    apply nxAlign8_of_small
    have : (4096 : Nat) + 7 < 2 ^ 32 := by norm_num
    simp only [NX_ARENA_BLOCK_SIZE] at h
    omega
  simp only [NX_ARENA_BLOCK_SIZE] at h ⊢
  simp only [e, roundUp8]
  omega

/-- C5 (amended): for every requested size whose 8-byte rounding does not
overflow the 32-bit mask arithmetic (`size + 7 < 2 ^ 32`), the active block's
`used` counter advances by exactly the least multiple of 8 that is greater
than or equal to the requested size — from its old value when the request
fits, and from 0 in the fresh block otherwise. -/
theorem nx_arena_alloc_align_amended (a : NXArena) (size : Nat) (cur : NXArenaBlock)
    (hcur : a.blocks.get? a.currentIdx = some cur)
    (hsz : size + 7 < 2 ^ 32) :
    activeUsed (nx_arena_alloc a size).2 =
        (if cur.size < cur.used + nxAlign8 size then 0 else cur.used) + nxAlign8 size
    ∧ nxAlign8 size = roundUp8 size
    ∧ size ≤ roundUp8 size
    ∧ 8 ∣ roundUp8 size
    ∧ ∀ m, 8 ∣ m → size ≤ m → roundUp8 size ≤ m := by
  have halign := nxAlign8_of_small hsz
  have hidx : a.currentIdx < a.blocks.length := by
    by_contra hle
    rw [List.get?_eq_none.2 (by omega)] at hcur
    exact Option.noConfusion hcur
  refine ⟨?_, halign, ?_, ?_, ?_⟩
  · simp only [nx_arena_alloc, hcur]
    split
    · -- new block appended after `current`
      simp only [activeUsed]
      have hlen : (a.blocks.take (a.currentIdx + 1)).length = a.currentIdx + 1 := by
        simp [List.length_take]; omega
      rw [List.get?_append_right (by omega)]
      simp [hlen]
    · -- in-place bump
      simp only [activeUsed]
      rw [nxGet?SetSelf _ _ _ hidx]
  · simp only [roundUp8]; omega
  · exact ⟨(size + 7) / 8, rfl⟩
  · intro m hm hle
    obtain ⟨t, rfl⟩ := hm
    simp only [roundUp8]
    omega

/-- C5, failure of the claim as stated: at requested size `2 ^ 32` the C
alignment expression `(size + 7U) & ~7U` truncates to 0 (the 32-bit `~7U`
masks off every bit above bit 31), so on a fresh arena the active block's
`used` counter advances by 0 — which is not the least multiple of 8 greater
than or equal to the requested size, since it is not even ≥ `2 ^ 32`. -/
theorem nx_arena_alloc_align_counterexample :
    activeUsed (nx_arena_alloc (nx_arena_create 0) (2 ^ 32)).2 = 0
    ∧ activeUsed (nx_arena_create 0) = 0
    ∧ ¬ (2 ^ 32 ≤ (0 : Nat)) := by
  refine ⟨by decide, by decide, by decide⟩

theorem arena_alloc_headOk (a : NXArena) (s : Nat) (b : NXArenaBlock)
    (h : a.blocks.head? = some b) :
    ∃ u, ((nx_arena_alloc a s).2).blocks.head? =
      some { addr := b.addr, used := u, size := b.size } := by
  cases hcur : a.blocks.get? a.currentIdx with
  | none =>
    refine ⟨b.used, ?_⟩
    simp only [nx_arena_alloc, hcur]
    simpa using h
  | some cur =>
    cases hbl : a.blocks with
    | nil => rw [hbl] at h; exact Option.noConfusion h
    | cons b0 t =>
      rw [hbl] at h
      have hb0 : b0 = b := by simpa using h
      subst hb0
      simp only [nx_arena_alloc, hcur]
      split
      · refine ⟨b0.used, ?_⟩
        simp [hbl, List.take_succ_cons]
      · cases hi : a.currentIdx with
        | zero =>
          have hcb : cur = b0 := by rw [hbl, hi] at hcur; simpa using hcur.symm
          subst hcb
          refine ⟨cur.used + nxAlign8 s, ?_⟩
          simp [hbl, hi]
        | succ j =>
          refine ⟨b0.used, ?_⟩
          simp [hbl, hi]

theorem arena_run_headOk (sizes : List Nat) :
    ∀ (a : NXArena) (b : NXArenaBlock), a.blocks.head? = some b →
    ∃ u, (nxArenaRun sizes a).blocks.head? =
      some { addr := b.addr, used := u, size := b.size } := by
  induction sizes with
  | nil => intro a b h; exact ⟨b.used, by simpa [nxArenaRun] using h⟩
  | cons s rest ih =>
    intro a b h
    obtain ⟨u1, h1⟩ := arena_alloc_headOk a s b h
    obtain ⟨u2, h2⟩ := ih ((nx_arena_alloc a s).2) _ h1
    exact ⟨u2, by simpa [nxArenaRun] using h2⟩

theorem arena_alloc_from_first (base s : Nat) (a : NXArena)
    (hhead : a.blocks.head? = some { addr := base, used := 0, size := NX_ARENA_BLOCK_SIZE })
    (hidx : a.currentIdx = 0)
    (hs : s ≤ NX_ARENA_BLOCK_SIZE) :
    (nx_arena_alloc a s).1 = base := by
  cases hbl : a.blocks with
  | nil => rw [hbl] at hhead; exact Option.noConfusion hhead
  | cons b0 t =>
    rw [hbl] at hhead
    have hb0 : b0 = { addr := base, used := 0, size := NX_ARENA_BLOCK_SIZE } := by
      simpa using hhead
    have hget : a.blocks.get? a.currentIdx =
        some ({ addr := base, used := 0, size := NX_ARENA_BLOCK_SIZE } : NXArenaBlock) := by
      rw [hbl, hidx, hb0]; rfl
    simp only [nx_arena_alloc, hget]
    rw [if_neg]
    · simp
    · have := nxAlign8_le_block hs
      simp only [NX_ARENA_BLOCK_SIZE] at this ⊢
      omega

/-- C8: for every arena reachable from `nx_arena_create` by any sequence of
allocations, `nx_arena_reset` zeroes every block's `used` counter and
repoints `current` to the first block while keeping every block, and a
subsequent allocation of any size ≤ the default block size returns the same
starting address as the very first such allocation made from the fresh
arena. -/
theorem nx_arena_reset_replay_spec (sizes : List Nat) (base s1 s2 : Nat)
    (h1 : s1 ≤ NX_ARENA_BLOCK_SIZE) (h2 : s2 ≤ NX_ARENA_BLOCK_SIZE) :
    (nx_arena_reset (nxArenaRun sizes (nx_arena_create base))).blocks
      = (nxArenaRun sizes (nx_arena_create base)).blocks.map (fun b => { b with used := 0 })
    ∧ (nx_arena_reset (nxArenaRun sizes (nx_arena_create base))).currentIdx = 0
    ∧ (nx_arena_alloc (nx_arena_reset (nxArenaRun sizes (nx_arena_create base))) s2).1
      = (nx_arena_alloc (nx_arena_create base) s1).1 := by
  refine ⟨rfl, rfl, ?_⟩
  obtain ⟨u, hh⟩ := arena_run_headOk sizes (nx_arena_create base)
    { addr := base, used := 0, size := NX_ARENA_BLOCK_SIZE } (by simp [nx_arena_create])
  have hresethead :
      (nx_arena_reset (nxArenaRun sizes (nx_arena_create base))).blocks.head? =
        some { addr := base, used := 0, size := NX_ARENA_BLOCK_SIZE } := by
    simp only [nx_arena_reset]
    rw [List.head?_map, hh]
    rfl
  rw [arena_alloc_from_first base s2 _ hresethead rfl h2,
    arena_alloc_from_first base s1 _ (by simp [nx_arena_create]) rfl h1]

/-- Witness for `nx_arena_alloc_align_amended` at a concrete input. -/
theorem nx_arena_alloc_align_amended_witness :
    (nx_arena_create 0).blocks.get? (nx_arena_create 0).currentIdx =
      some { addr := 0, used := 0, size := NX_ARENA_BLOCK_SIZE }
    ∧ 20 + 7 < 2 ^ 32
    ∧ (activeUsed (nx_arena_alloc (nx_arena_create 0) 20).2 =
        (if ({ addr := 0, used := 0, size := NX_ARENA_BLOCK_SIZE } : NXArenaBlock).size <
            ({ addr := 0, used := 0, size := NX_ARENA_BLOCK_SIZE } : NXArenaBlock).used +
              nxAlign8 20 then 0
         else ({ addr := 0, used := 0, size := NX_ARENA_BLOCK_SIZE } : NXArenaBlock).used) +
          nxAlign8 20
      ∧ nxAlign8 20 = roundUp8 20
      ∧ 20 ≤ roundUp8 20
      ∧ 8 ∣ roundUp8 20
      ∧ ∀ m, 8 ∣ m → 20 ≤ m → roundUp8 20 ≤ m) :=
  ⟨by decide, by decide,
   nx_arena_alloc_align_amended (nx_arena_create 0) 20
     { addr := 0, used := 0, size := NX_ARENA_BLOCK_SIZE } (by decide) (by decide)⟩

/-- Witness for `nx_arena_reset_replay_spec` at a concrete input. -/
theorem nx_arena_reset_replay_spec_witness :
    1 ≤ NX_ARENA_BLOCK_SIZE ∧ 4096 ≤ NX_ARENA_BLOCK_SIZE ∧
    ((nx_arena_reset (nxArenaRun [100, 8000] (nx_arena_create 3))).blocks
      = (nxArenaRun [100, 8000] (nx_arena_create 3)).blocks.map (fun b => { b with used := 0 })
    ∧ (nx_arena_reset (nxArenaRun [100, 8000] (nx_arena_create 3))).currentIdx = 0
    ∧ (nx_arena_alloc (nx_arena_reset (nxArenaRun [100, 8000] (nx_arena_create 3))) 4096).1
      = (nx_arena_alloc (nx_arena_create 3) 1).1) :=
  ⟨by decide, by decide,
   nx_arena_reset_replay_spec [100, 8000] 3 1 4096 (by decide) (by decide)⟩

/-! ## String builder theorems (claim C4) -/

theorem sbWriteBytes_length :
    ∀ (s : List Nat) (buf : List Nat) (off : Nat),
      (sbWriteBytes buf off s).length = buf.length := by
  intro s
  induction s with
  | nil => intro buf off; rfl
  | cons b t ih =>
    intro buf off
    simp only [sbWriteBytes]
    rw [ih, List.length_set]

theorem sbWriteBytes_getD_last :
    ∀ (s : List Nat) (buf : List Nat) (off : Nat), off + s.length < buf.length →
      (sbWriteBytes buf off (s ++ [0])).getD (off + s.length) 1 = 0 := by
  intro s
  induction s with
  | nil =>
    intro buf off h
    simp only [List.nil_append, sbWriteBytes, List.length_nil, Nat.add_zero] at h ⊢
    exact nxGetDSetSelf buf off 0 1 h
  | cons b t ih =>
    intro buf off h
    simp only [List.cons_append, sbWriteBytes, List.length_cons]
    have h2 : (off + 1) + t.length < (buf.set off b).length := by
      rw [List.length_set]; simp at h; omega
    have := ih (buf.set off b) (off + 1) h2
    have harith : off + (t.length + 1) = (off + 1) + t.length := by omega
    rw [harith]
    exact this

theorem sbGrowCap_gt_aux (need : Nat) :
    ∀ fuel cap, need + 1 - cap ≤ fuel → 0 < cap → need < sbGrowCap need cap := by
  intro fuel
  induction fuel with
  | zero =>
    intro cap hf hc
    rw [sbGrowCap, if_neg]
    · omega
    · intro hand; omega
  | succ n ih =>
    intro cap hf hc
    rw [sbGrowCap]
    split
    · rename_i hand
      refine ih (cap * NX_STRING_BUILDER_GROWTH_FACTOR) ?_ ?_ <;>
        simp only [NX_STRING_BUILDER_GROWTH_FACTOR] <;> omega
    · rename_i hand
      simp only [not_and, Nat.not_le] at hand
      exact hand hc

theorem sbGrowCap_gt (need cap : Nat) (hc : 0 < cap) : need < sbGrowCap need cap :=
  sbGrowCap_gt_aux need (need + 1 - cap) cap le_rfl hc

/-- After the (possibly growing) capacity check of `append`/`append_char`,
all three invariant ingredients hold with room for `extra` more bytes. -/
theorem sb_after_growth (sb : NXStringBuilder) (extra : Nat)
    (h1 : sb.length < sb.capacity) (h2 : sb.buffer.length = sb.capacity)
    (newCap : Nat) (hbig : sb.length + extra < newCap) :
    (nx_string_builder_resize sb newCap).length = sb.length
    ∧ (nx_string_builder_resize sb newCap).buffer.length
        = (nx_string_builder_resize sb newCap).capacity
    ∧ sb.length + extra < (nx_string_builder_resize sb newCap).capacity
    ∧ ∀ i, i < sb.buffer.length →
        (nx_string_builder_resize sb newCap).buffer.getD i 1 = sb.buffer.getD i 1 := by
  simp only [nx_string_builder_resize]
  split
  · exact ⟨rfl, h2, by omega, fun i _ => rfl⟩
  · rename_i hgt
    simp only [Nat.not_le] at hgt
    refine ⟨rfl, ?_, by dsimp only; omega, ?_⟩
    · dsimp only
      simp only [List.length_append, List.length_replicate]
      omega
    · intro i hi
      exact List.getD_append _ _ _ _ hi

theorem sbApply_inv (op : NXSBOp) (sb : NXStringBuilder) (h : SBInv sb) :
    SBInv (nxSBApply op sb) := by
  obtain ⟨h1, h2, h3⟩ := h
  cases op with
  | append s =>
    simp only [nxSBApply, nx_string_builder_append]
    have key : ∀ sb1 : NXStringBuilder,
        sb1.length = sb.length → sb1.buffer.length = sb1.capacity →
        sb.length + s.length < sb1.capacity →
        SBInv { sb1 with
                buffer := sbWriteBytes sb1.buffer sb1.length (s ++ [0]),
                length := sb1.length + s.length } := by
      intro sb1 e1 e2 e3
      refine ⟨by dsimp only; omega, ?_, ?_⟩
      · dsimp only
        rw [sbWriteBytes_length, e2]
      · dsimp only
        exact sbWriteBytes_getD_last s sb1.buffer sb1.length (by omega)
    split
    · rename_i hge
      have hcap2 : 0 < sb.capacity * NX_STRING_BUILDER_GROWTH_FACTOR := by
        simp only [NX_STRING_BUILDER_GROWTH_FACTOR]; omega
      have hG := sbGrowCap_gt (sb.length + s.length)
        (sb.capacity * NX_STRING_BUILDER_GROWTH_FACTOR) hcap2
      obtain ⟨e1, e2, e3, _⟩ := sb_after_growth sb s.length h1 h2 _ hG
      exact key _ e1 e2 e3
    · rename_i hlt
      simp only [Nat.not_le] at hlt
      exact key sb rfl h2 hlt
  | appendChar c =>
    simp only [nxSBApply, nx_string_builder_append_char]
    have key : ∀ sb1 : NXStringBuilder,
        sb1.length = sb.length → sb1.buffer.length = sb1.capacity →
        sb.length + 1 < sb1.capacity →
        SBInv { sb1 with
                buffer := (sb1.buffer.set sb1.length c).set (sb1.length + 1) 0,
                length := sb1.length + 1 } := by
      intro sb1 e1 e2 e3
      refine ⟨by dsimp only; omega, ?_, ?_⟩
      · dsimp only
        rw [List.length_set, List.length_set, e2]
      · dsimp only
        exact nxGetDSetSelf _ _ _ _ (by rw [List.length_set]; omega)
    split
    · rename_i hge
      have hgrow : sb.length + 1 < sb.capacity * NX_STRING_BUILDER_GROWTH_FACTOR := by
        simp only [NX_STRING_BUILDER_GROWTH_FACTOR]; omega
      obtain ⟨e1, e2, e3, _⟩ := sb_after_growth sb 1 h1 h2 _ hgrow
      exact key _ e1 e2 e3
    · rename_i hlt
      simp only [Nat.not_le] at hlt
      exact key sb rfl h2 hlt
  | clear =>
    simp only [nxSBApply, nx_string_builder_clear]
    refine ⟨by dsimp only; omega, by dsimp only; rw [List.length_set, h2], ?_⟩
    dsimp only
    exact nxGetDSetSelf _ _ _ _ (by omega)
  | resize n =>
    simp only [nxSBApply, nx_string_builder_resize]
    split
    · exact ⟨h1, h2, h3⟩
    · rename_i hgt
      simp only [Nat.not_le] at hgt
      refine ⟨by dsimp only; omega, ?_, ?_⟩
      · dsimp only
        simp only [List.length_append, List.length_replicate]; omega
      · dsimp only
        rw [List.getD_append _ _ _ _ (by omega)]
        exact h3

theorem sbRun_inv (ops : List NXSBOp) :
    ∀ sb : NXStringBuilder, SBInv sb → SBInv (nxSBRun ops sb) := by
  induction ops with
  | nil => intro sb h; exact h
  | cons op rest ih =>
    intro sb h
    exact ih (nxSBApply op sb) (sbApply_inv op sb h)

/-- C4: after every mutating string-builder operation — and hence for every
sequence of `append` / `append_char` / `clear` / `resize` operations applied
to a builder made by `nx_string_builder_create` — the buffer is
`NUL`-terminated at index `length` and `capacity > length` holds. -/
theorem nx_string_builder_invariant_spec (ops : List NXSBOp) :
    SBInv (nxSBRun ops nx_string_builder_create) := by
  apply sbRun_inv
  refine ⟨by decide, by decide, by decide⟩

/-! ## Hash map: chain-level lemmas -/

theorem nxGetDEqGet {α : Type _} (l : List α) (i : Nat) (d : α) (h : i < l.length) :
    l.getD i d = l.get ⟨i, h⟩ := by
  simp [List.getD, List.getElem?_eq_getElem h, List.get_eq_getElem]

theorem nxGetDReplicateNil {α : Type _} :
    ∀ (n j : Nat), (List.replicate n ([] : List α)).getD j [] = [] := by
  intro n
  induction n with
  | zero => intro j; simp
  | succ n2 ih =>
    intro j
    cases j with
    | zero => simp [List.replicate]
    | succ j2 => simpa [List.replicate] using ih j2

theorem nxFlattenReplicateNil {α : Type _} :
    ∀ n : Nat, (List.replicate n ([] : List α)).flatten = [] := by
  intro n
  induction n with
  | zero => rfl
  | succ n2 ih => simpa [List.replicate] using ih

theorem nxChainGet_overwrite (keq : K → K → Bool) (k : K) (v : Option V) :
    ∀ c : List (K × Option V), nxChainContains keq c k = true →
      nxChainGet keq (nxChainOverwrite keq k v c) k = v := by
  intro c
  induction c with
  | nil => intro h; simp [nxChainContains] at h
  | cons e t ih =>
    intro h
    by_cases he : keq e.1 k = true
    · simp [nxChainOverwrite, nxChainGet, he]
    · rw [Bool.not_eq_true] at he
      simp only [nxChainContains, he, Bool.false_or] at h
      simp [nxChainOverwrite, nxChainGet, he, ih h]

theorem nxChainGet_none_of_all_false (keq : K → K → Bool) (k : K) :
    ∀ c : List (K × Option V), (∀ e ∈ c, keq e.1 k = false) →
      nxChainGet keq c k = none := by
  intro c
  induction c with
  | nil => intro _; rfl
  | cons e t ih =>
    intro h
    have he := h e (List.mem_cons_self e t)
    simp only [nxChainGet, he]
    exact ih fun e2 he2 => h e2 (List.mem_cons_of_mem e he2)

theorem nxChainContains_false_all (keq : K → K → Bool) (k : K) :
    ∀ c : List (K × Option V), nxChainContains keq c k = false →
      ∀ e ∈ c, keq e.1 k = false := by
  intro c
  induction c with
  | nil => intro _ e he; simp at he
  | cons a t ih =>
    intro h e he
    simp only [nxChainContains, Bool.or_eq_false_iff] at h
    rcases List.mem_cons.1 he with rfl | het
    · exact h.1
    · exact ih h.2 e het

theorem nxChainContains_of_mem (keq : K → K → Bool) (k : K) :
    ∀ (c : List (K × Option V)) (e : K × Option V), e ∈ c → keq e.1 k = true →
      nxChainContains keq c k = true := by
  intro c
  induction c with
  | nil => intro e he _; simp at he
  | cons a t ih =>
    intro e he hm
    rcases List.mem_cons.1 he with rfl | het
    · simp [nxChainContains, hm]
    · simp [nxChainContains, ih e het hm]

theorem nxChainGet_first (keq : K → K → Bool) (k : K) :
    ∀ c : List (K × Option V), (∃ e ∈ c, keq e.1 k = true) →
      ∃ e, e ∈ c ∧ keq e.1 k = true ∧ nxChainGet keq c k = e.2 := by
  intro c
  induction c with
  | nil => rintro ⟨e, he, _⟩; simp at he
  | cons a t ih =>
    intro hx
    by_cases ha : keq a.1 k = true
    · exact ⟨a, List.mem_cons_self a t, ha, by simp [nxChainGet, ha]⟩
    · rw [Bool.not_eq_true] at ha
      obtain ⟨e, he, hm⟩ := hx
      rcases List.mem_cons.1 he with rfl | het
      · rw [hm] at ha; exact Bool.noConfusion ha
      · obtain ⟨e1, h1, h2, h3⟩ := ih ⟨e, het, hm⟩
        exact ⟨e1, List.mem_cons_of_mem a h1, h2, by simp [nxChainGet, ha, h3]⟩

theorem nxChainRemove_none (keq : K → K → Bool) (k : K) :
    ∀ c : List (K × Option V), nxChainRemove keq k c = none →
      nxChainContains keq c k = false := by
  intro c
  induction c with
  | nil => intro _; rfl
  | cons a t ih =>
    intro h
    by_cases ha : keq a.1 k = true
    · simp [nxChainRemove, ha] at h
    · rw [Bool.not_eq_true] at ha
      simp only [nxChainRemove, ha, Bool.false_eq_true, if_false,
        Option.map_eq_none'] at h
      simp [nxChainContains, ha, ih h]

theorem nxChainRemove_some_get (keq : K → K → Bool) (k : K)
    (hsymm : ∀ a b, keq a b = keq b a)
    (htrans : ∀ a b c, keq a b = true → keq b c = true → keq a c = true) :
    ∀ (c c2 : List (K × Option V)),
      (c.Pairwise fun a b => keq a.1 b.1 = false ∧ keq b.1 a.1 = false) →
      nxChainRemove keq k c = some c2 → nxChainGet keq c2 k = none := by
  intro c
  induction c with
  | nil => intro c2 _ h; simp [nxChainRemove] at h
  | cons a t ih =>
    intro c2 hpw hrem
    rw [List.pairwise_cons] at hpw
    by_cases ha : keq a.1 k = true
    · have hc2 : t = c2 := by simpa [nxChainRemove, ha] using hrem
      subst hc2
      apply nxChainGet_none_of_all_false
      intro e he
      by_contra hne
      rw [Bool.not_eq_false] at hne
      have h1 : keq a.1 e.1 = true := htrans a.1 k e.1 ha (by rw [hsymm]; exact hne)
      have h2 : keq a.1 e.1 = false := (hpw.1 e he).1
      rw [h1] at h2
      exact Bool.noConfusion h2
    · rw [Bool.not_eq_true] at ha
      simp only [nxChainRemove, ha, Bool.false_eq_true, if_false,
        Option.map_eq_some'] at hrem
      obtain ⟨t2, ht2, rfl⟩ := hrem
      simp only [nxChainGet, ha, Bool.false_eq_true, if_false]
      exact ih t2 hpw.2 ht2

/-! ## Hash map: rehash lemmas -/

theorem nxRehashChain_length (idxOf : K → Nat) :
    ∀ (c : List (K × Option V)) (acc : List (List (K × Option V))),
      (nxRehashChain idxOf c acc).length = acc.length := by
  intro c
  induction c with
  | nil => intro acc; rfl
  | cons e t ih =>
    intro acc
    show (nxRehashChain idxOf t _).length = acc.length
    rw [ih, List.length_set]

theorem nxRehashChain_perm (idxOf : K → Nat) :
    ∀ (c : List (K × Option V)) (acc : List (List (K × Option V))),
      (∀ e ∈ c, idxOf e.1 < acc.length) →
      ((nxRehashChain idxOf c acc).flatten).Perm (c ++ acc.flatten) := by
  intro c
  induction c with
  | nil => intro acc _; simp [nxRehashChain]
  | cons e t ih =>
    intro acc h
    have he : idxOf e.1 < acc.length := h e (List.mem_cons_self e t)
    have step := nxFlattenSetCons acc (idxOf e.1) e he
    have ihh := ih (acc.set (idxOf e.1) (e :: acc.getD (idxOf e.1) []))
      (fun e2 he2 => by rw [List.length_set]; exact h e2 (List.mem_cons_of_mem e he2))
    have tstep := List.Perm.append_left t step
    show ((nxRehashChain idxOf t _).flatten).Perm ((e :: t) ++ acc.flatten)
    exact ihh.trans (tstep.trans List.perm_middle)

theorem nxRehashChain_correct (idxOf : K → Nat) :
    ∀ (c : List (K × Option V)) (acc : List (List (K × Option V))),
      (∀ j, j < acc.length → ∀ e ∈ acc.getD j [], idxOf e.1 = j) →
      ∀ j, j < (nxRehashChain idxOf c acc).length →
        ∀ e ∈ (nxRehashChain idxOf c acc).getD j [], idxOf e.1 = j := by
  intro c
  induction c with
  | nil => intro acc h; exact h
  | cons e t ih =>
    intro acc h
    apply ih
    intro j hj e2 he2
    rw [List.length_set] at hj
    by_cases hji : idxOf e.1 = j
    · rw [← hji] at hj he2 ⊢
      rw [nxGetDSetSelf _ _ _ _ hj] at he2
      rcases List.mem_cons.1 he2 with rfl | hmem
      · rfl
      · exact h _ hj e2 hmem
    · rw [nxGetDSetNe _ _ _ _ _ hji] at he2
      exact h j hj e2 he2

theorem nxRehashFold_length (idxOf : K → Nat) :
    ∀ (bs : List (List (K × Option V))) (acc : List (List (K × Option V))),
      ((bs.foldl (fun acc c => nxRehashChain idxOf c acc) acc)).length = acc.length := by
  intro bs
  induction bs with
  | nil => intro acc; rfl
  | cons c bt ih =>
    intro acc
    show ((bt.foldl _ (nxRehashChain idxOf c acc))).length = acc.length
    rw [ih, nxRehashChain_length]

theorem nxRehashFold_perm (idxOf : K → Nat) :
    ∀ (bs : List (List (K × Option V))) (acc : List (List (K × Option V))),
      (∀ c ∈ bs, ∀ e ∈ c, idxOf e.1 < acc.length) →
      ((bs.foldl (fun acc c => nxRehashChain idxOf c acc) acc).flatten).Perm
        (bs.flatten ++ acc.flatten) := by
  intro bs
  induction bs with
  | nil => intro acc _; simp
  | cons c bt ih =>
    intro acc h
    have hc : ∀ e ∈ c, idxOf e.1 < acc.length := h c (List.mem_cons_self c bt)
    have step := nxRehashChain_perm idxOf c acc hc
    have ihh := ih (nxRehashChain idxOf c acc)
      (fun c2 hc2 e he => by
        rw [nxRehashChain_length]
        exact h c2 (List.mem_cons_of_mem c hc2) e he)
    show ((bt.foldl _ (nxRehashChain idxOf c acc)).flatten).Perm
      ((c :: bt).flatten ++ acc.flatten)
    refine ihh.trans ?_
    have h2 := List.Perm.append_left bt.flatten step
    refine h2.trans ?_
    rw [List.flatten_cons]
    have e1 : bt.flatten ++ (c ++ acc.flatten) = (bt.flatten ++ c) ++ acc.flatten :=
      (List.append_assoc _ _ _).symm
    rw [e1]
    exact List.Perm.append_right acc.flatten List.perm_append_comm

theorem nxRehashFold_correct (idxOf : K → Nat) :
    ∀ (bs : List (List (K × Option V))) (acc : List (List (K × Option V))),
      (∀ j, j < acc.length → ∀ e ∈ acc.getD j [], idxOf e.1 = j) →
      ∀ j, j < (bs.foldl (fun acc c => nxRehashChain idxOf c acc) acc).length →
        ∀ e ∈ (bs.foldl (fun acc c => nxRehashChain idxOf c acc) acc).getD j [],
          idxOf e.1 = j := by
  intro bs
  induction bs with
  | nil => intro acc h; exact h
  | cons c bt ih =>
    intro acc h
    exact ih (nxRehashChain idxOf c acc) (nxRehashChain_correct idxOf c acc h)

/-! ## Hash map: resize and map-level lemmas -/

theorem nx_hashmap_resize_fields (m : NXHashMap K V) :
    (nx_hashmap_resize m).capacity = m.capacity * 2
    ∧ (nx_hashmap_resize m).size = m.size
    ∧ (nx_hashmap_resize m).hash = m.hash
    ∧ (nx_hashmap_resize m).keyEq = m.keyEq :=
  ⟨rfl, rfl, rfl, rfl⟩

theorem nx_hashmap_resize_entries (m : NXHashMap K V) (hcap : 0 < m.capacity) :
    (nxEntries (nx_hashmap_resize m)).Perm (nxEntries m) := by
  simp only [nx_hashmap_resize, nxEntries]
  have h := nxRehashFold_perm (fun k2 => m.hash k2 % (m.capacity * 2)) m.buckets
    (List.replicate (m.capacity * 2) [])
    (fun c _ e _ => by
      rw [List.length_replicate]
      exact Nat.mod_lt _ (by omega))
  rw [nxFlattenReplicateNil, List.append_nil] at h
  exact h

theorem nx_hashmap_resize_wf (m : NXHashMap K V) (hcap : 0 < m.capacity) :
    HMWf (nx_hashmap_resize m) := by
  refine ⟨by simp only [nx_hashmap_resize]; omega, ?_, ?_⟩
  · show (m.buckets.foldl _ (List.replicate (m.capacity * 2) [])).length = m.capacity * 2
    rw [nxRehashFold_length, List.length_replicate]
  · intro i hi e he
    exact nxRehashFold_correct (fun k2 => m.hash k2 % (m.capacity * 2)) m.buckets
      (List.replicate (m.capacity * 2) [])
      (fun j _ e2 he2 => by rw [nxGetDReplicateNil] at he2; simp at he2)
      i hi e he

theorem nx_entries_mem_bucket (m : NXHashMap K V)
    (hlen : m.buckets.length = m.capacity)
    (hbc : ∀ i, i < m.buckets.length → ∀ e ∈ m.buckets.getD i [], m.hash e.1 % m.capacity = i)
    (e : K × Option V) (he : e ∈ nxEntries m) :
    e ∈ m.buckets.getD (m.hash e.1 % m.capacity) [] := by
  obtain ⟨b, hb, heb⟩ := List.mem_flatten.1 he
  obtain ⟨⟨j, hj⟩, hget⟩ := List.mem_iff_get.1 hb
  have hgd : m.buckets.getD j [] = b := by rw [nxGetDEqGet _ _ _ hj, hget]
  have hidx := hbc j hj e (by rw [hgd]; exact heb)
  rw [hidx, hgd]
  exact heb

theorem nx_hashmap_get_of_unique (m : NXHashMap K V) (k : K) (v : Option V)
    (hwf : HMWf m)
    (hcons : ∀ a b, m.keyEq a b = true → m.hash a = m.hash b)
    (hx : ∃ e ∈ nxEntries m, m.keyEq e.1 k = true)
    (hall : ∀ e ∈ nxEntries m, m.keyEq e.1 k = true → e.2 = v) :
    nx_hashmap_get m k = v := by
  obtain ⟨hcap, hlen, hbc⟩ := hwf
  obtain ⟨e0, he0, hm0⟩ := hx
  have hbkt := nx_entries_mem_bucket m hlen hbc e0 he0
  rw [hcons e0.1 k hm0] at hbkt
  obtain ⟨e1, he1, hm1, hget⟩ :=
    nxChainGet_first m.keyEq k (m.buckets.getD (m.hash k % m.capacity) []) ⟨e0, hbkt, hm0⟩
  have hidxlt : m.hash k % m.capacity < m.buckets.length := by
    rw [hlen]; exact Nat.mod_lt _ hcap
  have he1m : e1 ∈ nxEntries m := nxMemFlattenOfGetD _ _ _ hidxlt he1
  simp only [nx_hashmap_get]
  rw [hget]
  exact hall e1 he1m hm1

theorem nx_hashmap_insert_get (m : NXHashMap K V) (k : K) (v : Option V)
    (hwf : HMWf m)
    (hrefl : m.keyEq k k = true)
    (hcons : ∀ a b, m.keyEq a b = true → m.hash a = m.hash b) :
    nx_hashmap_get (nx_hashmap_insert m k v).1 k = v := by
  obtain ⟨hcap, hlen, hbc⟩ := hwf
  have hidxlt : m.hash k % m.capacity < m.buckets.length := by
    rw [hlen]; exact Nat.mod_lt _ hcap
  by_cases hc : nxChainContains m.keyEq (m.buckets.getD (m.hash k % m.capacity) []) k = true
  · -- an equal key is present: its value is overwritten in place
    simp only [nx_hashmap_insert]
    rw [if_pos hc]
    simp only [nx_hashmap_get]
    rw [nxGetDSetSelf _ _ _ _ hidxlt]
    exact nxChainGet_overwrite m.keyEq k v _ hc
  · rw [Bool.not_eq_true] at hc
    simp only [nx_hashmap_insert]
    rw [if_neg (by rw [hc]; exact Bool.noConfusion)]
    dsimp only
    by_cases hload : nxLoadExceeded (m.size + 1) m.capacity = true
    · -- the new entry pushed the load factor over: resize, then look up
      rw [if_pos hload]
      dsimp only
      set m1 : NXHashMap K V :=
        { m with
          buckets := m.buckets.set (m.hash k % m.capacity)
            ((k, v) :: m.buckets.getD (m.hash k % m.capacity) []),
          size := m.size + 1 } with hm1
      have hperm1 : (nxEntries (nx_hashmap_resize m1)).Perm (nxEntries m1) :=
        nx_hashmap_resize_entries m1 hcap
      have hperm2 : (nxEntries m1).Perm ((k, v) :: nxEntries m) :=
        nxFlattenSetCons m.buckets (m.hash k % m.capacity) (k, v) hidxlt
      have hperm := hperm1.trans hperm2
      apply nx_hashmap_get_of_unique (nx_hashmap_resize m1) k v
        (nx_hashmap_resize_wf m1 hcap) hcons
      · exact ⟨(k, v), hperm.mem_iff.2 (List.mem_cons_self _ _), hrefl⟩
      · intro e he hm
        rcases List.mem_cons.1 (hperm.mem_iff.1 he) with rfl | hmem
        · rfl
        · have hb := nx_entries_mem_bucket m hlen hbc e hmem
          rw [hcons e.1 k hm] at hb
          have hcontra := nxChainContains_of_mem m.keyEq k _ e hb hm
          rw [hc] at hcontra
          exact Bool.noConfusion hcontra
    · rw [Bool.not_eq_true] at hload
      rw [if_neg (by rw [hload]; exact Bool.noConfusion)]
      simp only [nx_hashmap_get]
      rw [nxGetDSetSelf _ _ _ _ hidxlt]
      simp [nxChainGet, hrefl]

theorem nx_hashmap_insert_entries (m : NXHashMap K V) (k : K) (v : Option V)
    (hwf : HMWf m)
    (hc : nxChainContains m.keyEq (m.buckets.getD (m.hash k % m.capacity) []) k = false) :
    (nxEntries (nx_hashmap_insert m k v).1).Perm ((k, v) :: nxEntries m) := by
  obtain ⟨hcap, hlen, hbc⟩ := hwf
  have hidxlt : m.hash k % m.capacity < m.buckets.length := by
    rw [hlen]; exact Nat.mod_lt _ hcap
  have hperm2 :
      ((m.buckets.set (m.hash k % m.capacity)
        ((k, v) :: m.buckets.getD (m.hash k % m.capacity) [])).flatten).Perm
        ((k, v) :: nxEntries m) :=
    nxFlattenSetCons m.buckets (m.hash k % m.capacity) (k, v) hidxlt
  simp only [nx_hashmap_insert]
  rw [if_neg (by rw [hc]; exact Bool.noConfusion)]
  dsimp only
  split
  · refine ((nx_hashmap_resize_entries _ ?_).trans hperm2)
    exact hcap
  · exact hperm2

theorem nx_hashmap_insert_trigger_capacity (m : NXHashMap K V) (k : K) (v : Option V)
    (hc : nxChainContains m.keyEq (m.buckets.getD (m.hash k % m.capacity) []) k = false)
    (hload : nxLoadExceeded (m.size + 1) m.capacity = true) :
    (nx_hashmap_insert m k v).1.capacity = m.capacity * 2 := by
  simp only [nx_hashmap_insert]
  rw [if_neg (by rw [hc]; exact Bool.noConfusion)]
  dsimp only
  rw [if_pos hload]
  rfl

theorem nx_hashmap_remove_get (m : NXHashMap K V) (k : K)
    (hwf : HMWf m) (hnd : NoDupKeys m)
    (hsymm : ∀ a b, m.keyEq a b = m.keyEq b a)
    (htrans : ∀ a b c, m.keyEq a b = true → m.keyEq b c = true → m.keyEq a c = true) :
    nx_hashmap_get (nx_hashmap_remove m k).1 k = none := by
  obtain ⟨hcap, hlen, hbc⟩ := hwf
  have hidxlt : m.hash k % m.capacity < m.buckets.length := by
    rw [hlen]; exact Nat.mod_lt _ hcap
  have hpw := List.Pairwise.sublist
    (nxSublistGetDFlatten m.buckets (m.hash k % m.capacity)) hnd
  cases hrem : nxChainRemove m.keyEq k (m.buckets.getD (m.hash k % m.capacity) []) with
  | none =>
    simp only [nx_hashmap_remove, hrem]
    exact nxChainGet_none_of_all_false m.keyEq k _
      (nxChainContains_false_all m.keyEq k _ (nxChainRemove_none m.keyEq k _ hrem))
  | some c2 =>
    simp only [nx_hashmap_remove, hrem]
    simp only [nx_hashmap_get]
    rw [nxGetDSetSelf _ _ _ _ hidxlt]
    exact nxChainRemove_some_get m.keyEq k hsymm htrans _ c2 hpw hrem

theorem nx_hashmap_insert_capacity_or (m : NXHashMap K V) (k : K) (v : Option V) :
    (nx_hashmap_insert m k v).1.capacity = m.capacity
    ∨ (nx_hashmap_insert m k v).1.capacity = m.capacity * 2 := by
  simp only [nx_hashmap_insert]
  split
  · left; rfl
  · dsimp only
    split
    · right; rfl
    · left; rfl

theorem nx_hashmap_remove_capacity (m : NXHashMap K V) (k : K) :
    (nx_hashmap_remove m k).1.capacity = m.capacity := by
  simp only [nx_hashmap_remove]
  split <;> rfl

/-! ## Hash map claim theorems (C2, C3, C9, C10) -/

/-- C2: for a hash map whose bucket structure is well formed, whose entry
keys are pairwise inequivalent, and whose equality predicate is an
equivalence consistent with the hash function: `get` after `insert(k, v)`
returns `v`; inserting a key that is already present leaves `size`
unchanged (while the stored value is overwritten, per the first conjunct);
and `get` after `remove(k)` returns the not-found result `NULL`. -/
theorem nx_hashmap_finite_map_spec (m : NXHashMap K V) (k : K) (v : Option V)
    (hwf : HMWf m) (hnd : NoDupKeys m)
    (hrefl : ∀ a, m.keyEq a a = true)
    (hsymm : ∀ a b, m.keyEq a b = m.keyEq b a)
    (htrans : ∀ a b c, m.keyEq a b = true → m.keyEq b c = true → m.keyEq a c = true)
    (hcons : ∀ a b, m.keyEq a b = true → m.hash a = m.hash b) :
    nx_hashmap_get (nx_hashmap_insert m k v).1 k = v
    ∧ (nxChainContains m.keyEq (m.buckets.getD (m.hash k % m.capacity) []) k = true →
        (nx_hashmap_insert m k v).1.size = m.size)
    ∧ nx_hashmap_get (nx_hashmap_remove m k).1 k = none := by
  refine ⟨nx_hashmap_insert_get m k v hwf (hrefl k) hcons, ?_,
    nx_hashmap_remove_get m k hwf hnd hsymm htrans⟩
  intro hc
  simp only [nx_hashmap_insert]
  rw [if_pos hc]

/-- Witness for `nx_hashmap_finite_map_spec` at a concrete map. -/
theorem nx_hashmap_finite_map_spec_witness :
    nx_hashmap_get
        (nx_hashmap_insert
          (nx_hashmap_create (V := Nat) (fun a : Fin 4 => a.val) (fun a b => a == b))
          2 (some 7)).1 2 = some 7
    ∧ (nxChainContains
          (nx_hashmap_create (V := Nat) (fun a : Fin 4 => a.val) (fun a b => a == b)).keyEq
          ((nx_hashmap_create (V := Nat) (fun a : Fin 4 => a.val) (fun a b => a == b)).buckets.getD
            ((nx_hashmap_create (V := Nat) (fun a : Fin 4 => a.val) (fun a b => a == b)).hash 2 %
              (nx_hashmap_create (V := Nat) (fun a : Fin 4 => a.val) (fun a b => a == b)).capacity)
            []) 2 = true →
        (nx_hashmap_insert
          (nx_hashmap_create (V := Nat) (fun a : Fin 4 => a.val) (fun a b => a == b))
          2 (some 7)).1.size
          = (nx_hashmap_create (V := Nat) (fun a : Fin 4 => a.val) (fun a b => a == b)).size)
    ∧ nx_hashmap_get
        (nx_hashmap_remove
          (nx_hashmap_create (V := Nat) (fun a : Fin 4 => a.val) (fun a b => a == b)) 2).1 2
        = none :=
  nx_hashmap_finite_map_spec
    (nx_hashmap_create (V := Nat) (fun a : Fin 4 => a.val) (fun a b => a == b)) 2 (some 7)
    (by refine ⟨by decide, by decide, by decide⟩)
    List.Pairwise.nil
    (by decide) (by decide) (by decide) (by decide)

/-- C3: doubling growth.  `nx_hashmap_resize` doubles the capacity, rehashes
every entry into the new bucket array (the entry multiset is preserved — no
entry lost — the result is again well formed, and pairwise-distinct keys stay
pairwise distinct — no key duplicated); and an insert of an absent key that
pushes the load factor over the threshold returns with the capacity doubled
and exactly the old entries plus the new one. -/
theorem nx_hashmap_resize_growth_spec (m : NXHashMap K V)
    (hwf : HMWf m) (hnd : NoDupKeys m) :
    (nx_hashmap_resize m).capacity = m.capacity * 2
    ∧ (nxEntries (nx_hashmap_resize m)).Perm (nxEntries m)
    ∧ HMWf (nx_hashmap_resize m)
    ∧ NoDupKeys (nx_hashmap_resize m)
    ∧ ∀ k v,
        nxChainContains m.keyEq (m.buckets.getD (m.hash k % m.capacity) []) k = false →
        nxLoadExceeded (m.size + 1) m.capacity = true →
        (nx_hashmap_insert m k v).1.capacity = m.capacity * 2
        ∧ (nxEntries (nx_hashmap_insert m k v).1).Perm ((k, v) :: nxEntries m) := by
  have hcap := hwf.1
  have hperm := nx_hashmap_resize_entries m hcap
  refine ⟨rfl, hperm, nx_hashmap_resize_wf m hcap, ?_, ?_⟩
  · show (nxEntries (nx_hashmap_resize m)).Pairwise _
    exact (List.Perm.pairwise_iff (fun h => ⟨h.2, h.1⟩) hperm).2 hnd
  · intro k v hc hload
    exact ⟨nx_hashmap_insert_trigger_capacity m k v hc hload,
      nx_hashmap_insert_entries m k v hwf hc⟩

/-- Witness for `nx_hashmap_resize_growth_spec` at a concrete map. -/
theorem nx_hashmap_resize_growth_spec_witness :
    (nx_hashmap_resize
        (nx_hashmap_create (V := Nat) (fun a : Fin 4 => a.val) (fun a b => a == b))).capacity
      = (nx_hashmap_create (V := Nat) (fun a : Fin 4 => a.val) (fun a b => a == b)).capacity * 2
    ∧ (nxEntries (nx_hashmap_resize
        (nx_hashmap_create (V := Nat) (fun a : Fin 4 => a.val) (fun a b => a == b)))).Perm
        (nxEntries (nx_hashmap_create (V := Nat) (fun a : Fin 4 => a.val) (fun a b => a == b)))
    ∧ HMWf (nx_hashmap_resize
        (nx_hashmap_create (V := Nat) (fun a : Fin 4 => a.val) (fun a b => a == b)))
    ∧ NoDupKeys (nx_hashmap_resize
        (nx_hashmap_create (V := Nat) (fun a : Fin 4 => a.val) (fun a b => a == b)))
    ∧ ∀ k v,
        nxChainContains
          (nx_hashmap_create (V := Nat) (fun a : Fin 4 => a.val) (fun a b => a == b)).keyEq
          ((nx_hashmap_create (V := Nat) (fun a : Fin 4 => a.val) (fun a b => a == b)).buckets.getD
            ((nx_hashmap_create (V := Nat) (fun a : Fin 4 => a.val) (fun a b => a == b)).hash k %
              (nx_hashmap_create (V := Nat) (fun a : Fin 4 => a.val) (fun a b => a == b)).capacity)
            []) k = false →
        nxLoadExceeded
          ((nx_hashmap_create (V := Nat) (fun a : Fin 4 => a.val) (fun a b => a == b)).size + 1)
          (nx_hashmap_create (V := Nat) (fun a : Fin 4 => a.val) (fun a b => a == b)).capacity
          = true →
        (nx_hashmap_insert
          (nx_hashmap_create (V := Nat) (fun a : Fin 4 => a.val) (fun a b => a == b))
          k v).1.capacity
          = (nx_hashmap_create (V := Nat) (fun a : Fin 4 => a.val) (fun a b => a == b)).capacity * 2
        ∧ (nxEntries (nx_hashmap_insert
            (nx_hashmap_create (V := Nat) (fun a : Fin 4 => a.val) (fun a b => a == b))
            k v).1).Perm
            ((k, v) :: nxEntries
              (nx_hashmap_create (V := Nat) (fun a : Fin 4 => a.val) (fun a b => a == b))) :=
  nx_hashmap_resize_growth_spec
    (nx_hashmap_create (V := Nat) (fun a : Fin 4 => a.val) (fun a b => a == b))
    (by refine ⟨by decide, by decide, by decide⟩)
    List.Pairwise.nil

/-- C9: in every map state reachable from `nx_hashmap_create` by insert /
remove / get operations the capacity is positive — it starts at
`NX_HASHMAP_INITIAL_CAPACITY` and is only ever doubled — so the bucket-index
computation `hash(key) % capacity` never divides by zero. -/
theorem nx_hashmap_capacity_pos_spec (ops : List (NXHashMapOp K V))
    (hash : K → Nat) (keyEq : K → K → Bool) :
    0 < (nxHashMapRun ops (nx_hashmap_create hash keyEq)).capacity
    ∧ ∃ n, (nxHashMapRun ops (nx_hashmap_create hash keyEq)).capacity
        = NX_HASHMAP_INITIAL_CAPACITY * 2 ^ n := by
  suffices h : ∀ (ops : List (NXHashMapOp K V)) (m : NXHashMap K V),
      (∃ n, m.capacity = NX_HASHMAP_INITIAL_CAPACITY * 2 ^ n) →
      ∃ n, (nxHashMapRun ops m).capacity = NX_HASHMAP_INITIAL_CAPACITY * 2 ^ n by
    obtain ⟨n, hn⟩ := h ops (nx_hashmap_create hash keyEq)
      ⟨0, by simp [nx_hashmap_create]⟩
    refine ⟨?_, n, hn⟩
    rw [hn]
    have h2 : (0 : Nat) < 2 ^ n := pow_pos (by norm_num) n
    simp only [NX_HASHMAP_INITIAL_CAPACITY]
    omega
  intro ops
  induction ops with
  | nil => intro m h; exact h
  | cons op rest ih =>
    intro m h
    apply ih
    obtain ⟨n, hn⟩ := h
    cases op with
    | insert k v =>
      rcases nx_hashmap_insert_capacity_or m k v with he | he
      · exact ⟨n, by simp only [nxHashMapApply]; rw [he, hn]⟩
      · exact ⟨n + 1, by simp only [nxHashMapApply]; rw [he, hn]; ring⟩
    | remove k =>
      exact ⟨n, by simp only [nxHashMapApply]; rw [nx_hashmap_remove_capacity, hn]⟩
    | get k => exact ⟨n, hn⟩

/-- C10: a `NULL`-valued key is indistinguishable from an absent key at the
public interface — `get` after `insert(k, NULL)` returns `NULL`, exactly the
result `get` gives for any key matching no entry of its bucket. -/
theorem nx_hashmap_null_value_spec (m : NXHashMap K V) (k k2 : K)
    (hwf : HMWf m)
    (hrefl : ∀ a, m.keyEq a a = true)
    (hcons : ∀ a b, m.keyEq a b = true → m.hash a = m.hash b) :
    nx_hashmap_get (nx_hashmap_insert m k none).1 k = none
    ∧ (nxChainContains m.keyEq (m.buckets.getD (m.hash k2 % m.capacity) []) k2 = false →
        nx_hashmap_get m k2 = none) :=
  ⟨nx_hashmap_insert_get m k none hwf (hrefl k) hcons,
   fun h => nxChainGet_none_of_all_false m.keyEq k2 _
     (nxChainContains_false_all m.keyEq k2 _ h)⟩

/-- Witness for `nx_hashmap_null_value_spec` at a concrete map. -/
theorem nx_hashmap_null_value_spec_witness :
    nx_hashmap_get
        (nx_hashmap_insert
          (nx_hashmap_create (V := Nat) (fun a : Fin 4 => a.val) (fun a b => a == b))
          1 none).1 1 = none
    ∧ (nxChainContains
          (nx_hashmap_create (V := Nat) (fun a : Fin 4 => a.val) (fun a b => a == b)).keyEq
          ((nx_hashmap_create (V := Nat) (fun a : Fin 4 => a.val) (fun a b => a == b)).buckets.getD
            ((nx_hashmap_create (V := Nat) (fun a : Fin 4 => a.val) (fun a b => a == b)).hash 3 %
              (nx_hashmap_create (V := Nat) (fun a : Fin 4 => a.val) (fun a b => a == b)).capacity)
            []) 3 = false →
        nx_hashmap_get
          (nx_hashmap_create (V := Nat) (fun a : Fin 4 => a.val) (fun a b => a == b)) 3 = none) :=
  nx_hashmap_null_value_spec
    (nx_hashmap_create (V := Nat) (fun a : Fin 4 => a.val) (fun a b => a == b)) 1 3
    (by refine ⟨by decide, by decide, by decide⟩)
    (by decide) (by decide)

/-! ## Command runner theorems (claim C6) -/

/-- A runner holding captured output from an earlier `execute` and a pending
command (`gcc`, bytes 103/99/99). -/
def crWithOutput : NXCR :=
  { command := nx_string_builder_append nx_string_builder_create [103, 99, 99],
    output := some [111, 107],
    exitCode := 0 }

/-- An environment in which `pipe` fails. -/
def envPipeFail : CRExecEnv :=
  { pipeOk := false, forkOk := true, childOutput := [], childExited := true,
    childExitCode := 0 }

/-- C6, failure of the claim as stated: on pipe-creation failure the
previously captured output is NOT left untouched — `nx_cr_execute` frees
`cr->output` and nulls it before ever calling `pipe`. -/
theorem nx_cr_execute_failure_counterexample :
    (nx_cr_execute crWithOutput envPipeFail).2.output ≠ crWithOutput.output := by
  decide

/-- C6 (amended): if pipe creation or fork fails, `nx_cr_execute` returns the
sentinel `-1` with the pending command buffer and recorded exit code left
untouched — so the caller may retry the same command — but the previously
captured output has already been discarded (freed and set to `NULL`) before
the pipe/fork attempt. -/
theorem nx_cr_execute_failure_amended (cr : NXCR) (env : CRExecEnv)
    (h : env.pipeOk = false ∨ env.forkOk = false) :
    nx_cr_execute cr env = (-1, { cr with output := none }) := by
  simp only [nx_cr_execute]
  rcases h with h | h
  · rw [if_pos h]
  · by_cases hp : env.pipeOk = false
    · rw [if_pos hp]
    · rw [if_neg hp, if_pos h]

/-- Witness for `nx_cr_execute_failure_amended` at a concrete input. -/
theorem nx_cr_execute_failure_amended_witness :
    (envPipeFail.pipeOk = false ∨ envPipeFail.forkOk = false)
    ∧ nx_cr_execute crWithOutput envPipeFail
        = (-1, { crWithOutput with output := none }) :=
  ⟨Or.inl rfl, nx_cr_execute_failure_amended crWithOutput envPipeFail (Or.inl rfl)⟩

/-! ## Self-rebuild theorems (claims C1, C7) -/

/-- C1: when `nx_rebuild` determines a rebuild is needed (under a
representable basename and a successful source `stat`): if the compile fails
its nonzero exit code is returned to the caller and no binary is executed
(the outcome is an ordinary return, the trace holds the single compile); if
the compile succeeds (and the `execv` call itself does not fail) the process
image is replaced by the freshly built executable with the original argument
vector `argv[0..argc-1]` followed by a trailing null pointer — so
`nx_rebuild` does not return. -/
theorem nx_rebuild_exec_spec (sourceFile : List Char) (argv : List String)
    (env : RebuildEnv) (srcM : Int)
    (hlen : (nxExtractBasename sourceFile).length < 256)
    (hsrc : env.srcMtime = some srcM)
    (hneed : needsRebuild srcM env.exeMtime = true) :
    (env.compileExit ≠ 0 →
      nx_rebuild sourceFile argv env =
        ([RbEvent.compile (nxBuildArgs sourceFile (nxTargetExe sourceFile)) true],
         RbOutcome.ret env.compileExit))
    ∧ (env.compileExit = 0 → env.execOk = true →
      nx_rebuild sourceFile argv env =
        ([RbEvent.compile (nxBuildArgs sourceFile (nxTargetExe sourceFile)) true],
         RbOutcome.replaced (nxTargetExe sourceFile) (argv.map some ++ [none]))) := by
  constructor
  · intro hcc
    simp only [nx_rebuild, hsrc]
    rw [if_neg (by omega), if_pos hneed, if_pos hcc]
    rfl
  · intro hcc hexec
    simp only [nx_rebuild, hsrc]
    rw [if_neg (by omega), if_pos hneed, if_neg (by simp [hcc]), if_pos hexec]
    rfl

/-- Witness for `nx_rebuild_exec_spec` at a concrete input. -/
theorem nx_rebuild_exec_spec_witness :
    (nxExtractBasename "src/app.c".toList).length < 256
    ∧ ({ srcMtime := some 10, exeMtime := some 5, compileExit := 2,
         execOk := true } : RebuildEnv).srcMtime = some 10
    ∧ needsRebuild 10
        ({ srcMtime := some 10, exeMtime := some 5, compileExit := 2,
           execOk := true } : RebuildEnv).exeMtime = true
    ∧ ((({ srcMtime := some 10, exeMtime := some 5, compileExit := 2,
           execOk := true } : RebuildEnv).compileExit ≠ 0 →
        nx_rebuild "src/app.c".toList ["./app", "-x"]
            { srcMtime := some 10, exeMtime := some 5, compileExit := 2, execOk := true } =
          ([RbEvent.compile
              (nxBuildArgs "src/app.c".toList (nxTargetExe "src/app.c".toList)) true],
           RbOutcome.ret
             ({ srcMtime := some 10, exeMtime := some 5, compileExit := 2,
                execOk := true } : RebuildEnv).compileExit))
      ∧ (({ srcMtime := some 10, exeMtime := some 5, compileExit := 2,
            execOk := true } : RebuildEnv).compileExit = 0 →
         ({ srcMtime := some 10, exeMtime := some 5, compileExit := 2,
            execOk := true } : RebuildEnv).execOk = true →
        nx_rebuild "src/app.c".toList ["./app", "-x"]
            { srcMtime := some 10, exeMtime := some 5, compileExit := 2, execOk := true } =
          ([RbEvent.compile
              (nxBuildArgs "src/app.c".toList (nxTargetExe "src/app.c".toList)) true],
           RbOutcome.replaced (nxTargetExe "src/app.c".toList)
             ((["./app", "-x"] : List String).map some ++ [none])))) :=
  ⟨by decide, rfl, by decide,
   nx_rebuild_exec_spec "src/app.c".toList ["./app", "-x"]
     { srcMtime := some 10, exeMtime := some 5, compileExit := 2, execOk := true }
     10 (by decide) rfl (by decide)⟩

/-- C7: under a representable basename and a successful source `stat`,
`nx_rebuild` issues a compile invocation iff the executable's `stat` fails
(target missing) or the source is strictly newer — exactly one when needed,
zero otherwise — and in the no-rebuild case it returns 0 with an empty
trace. -/
theorem nx_rebuild_compile_iff_spec (sourceFile : List Char) (argv : List String)
    (env : RebuildEnv) (srcM : Int)
    (hlen : (nxExtractBasename sourceFile).length < 256)
    (hsrc : env.srcMtime = some srcM) :
    countCompiles (nx_rebuild sourceFile argv env).1
      = (if needsRebuild srcM env.exeMtime = true then 1 else 0)
    ∧ (needsRebuild srcM env.exeMtime = false →
        nx_rebuild sourceFile argv env = ([], RbOutcome.ret 0)) := by
  constructor
  · by_cases hneed : needsRebuild srcM env.exeMtime = true
    · rw [if_pos hneed]
      simp only [nx_rebuild, hsrc]
      rw [if_neg (by omega), if_pos hneed]
      by_cases hcc : env.compileExit ≠ 0
      · rw [if_pos hcc]; rfl
      · rw [if_neg hcc]
        by_cases hex : env.execOk = true
        · rw [if_pos hex]; rfl
        · rw [if_neg hex]; rfl
    · rw [if_neg hneed]
      simp only [nx_rebuild, hsrc]
      rw [if_neg (by omega), if_neg hneed]
      rfl
  · intro hneed
    simp only [nx_rebuild, hsrc]
    rw [if_neg (by omega), if_neg (by rw [hneed]; exact Bool.noConfusion)]

/-- Witness for `nx_rebuild_compile_iff_spec` at a concrete input (source
older than the executable: zero compiles, returns 0). -/
theorem nx_rebuild_compile_iff_spec_witness :
    (nxExtractBasename "src/app.c".toList).length < 256
    ∧ ({ srcMtime := some 4, exeMtime := some 5, compileExit := 0,
         execOk := true } : RebuildEnv).srcMtime = some 4
    ∧ (countCompiles
        (nx_rebuild "src/app.c".toList ["./app"]
          { srcMtime := some 4, exeMtime := some 5, compileExit := 0, execOk := true }).1
        = (if needsRebuild 4
              ({ srcMtime := some 4, exeMtime := some 5, compileExit := 0,
                 execOk := true } : RebuildEnv).exeMtime = true then 1 else 0)
      ∧ (needsRebuild 4
            ({ srcMtime := some 4, exeMtime := some 5, compileExit := 0,
               execOk := true } : RebuildEnv).exeMtime = false →
          nx_rebuild "src/app.c".toList ["./app"]
              { srcMtime := some 4, exeMtime := some 5, compileExit := 0, execOk := true }
            = ([], RbOutcome.ret 0))) :=
  ⟨by decide, rfl,
   nx_rebuild_compile_iff_spec "src/app.c".toList ["./app"]
     { srcMtime := some 4, exeMtime := some 5, compileExit := 0, execOk := true }
     4 (by decide) rfl⟩

end Nexus


